import Mathlib

/-!
Verification of the capeval backtesting engine (capeval.py).

The Python source is shallowly embedded as follows.

* Monetary amounts, thresholds and CAPE ratios (Python floats) are
  modelled as exact rationals.
* A calendar date is modelled either as a record of year/month/day or,
  for the price oracle, by its proleptic-Gregorian ordinal (the value of
  the CPython datetime.toordinal function); the two views are linked by
  the toOrdinal function below, which reproduces the arithmetic of
  CPython's _ymd2ord.
* Fallible code (uncaught exceptions such as ZeroDivisionError, or an
  exhausted retry budget in the price oracle) is modelled with Option:
  none marks an exception escaping the translated fragment.
* The mutable state of the Python objects (investor fields, the price
  cache dict, the result matrices) is threaded explicitly.
-/

namespace Capeval

/-! ## Investor accounts (class Investor) -/

/-- One simulated investor (class Investor).  Fields mirror the
attributes set in Investor.__init__. -/
structure Investor where
  buy_at : ℚ
  sell_at : ℚ
  init_cash : ℚ
  cash : ℚ
  shares : ℚ
  income : ℚ
deriving DecidableEq

/-- Investor.get_paid: self.cash += self.income. -/
def get_paid (inv : Investor) : Investor :=
  { inv with cash := inv.cash + inv.income }

/-- Investor.get_net_worth: self.cash + self.shares * market_price. -/
def get_net_worth (inv : Investor) (market_price : ℚ) : ℚ :=
  inv.cash + inv.shares * market_price

/-- Investor.sell_all: self.cash += market_price * self.shares;
self.shares = 0. -/
def sell_all (inv : Investor) (market_price : ℚ) : Investor :=
  { inv with cash := inv.cash + market_price * inv.shares, shares := 0 }

/-- Investor.buy_all: self.shares += self.cash / market_price;
self.cash = 0.  A zero price raises ZeroDivisionError in Python
(modelled as none); any nonzero price, negative ones included, divides
without complaint. -/
def buy_all (inv : Investor) (market_price : ℚ) : Option Investor :=
  if market_price = 0 then none
  else some { inv with shares := inv.shares + inv.cash / market_price, cash := 0 }

/-- Investor.react_to_pe.  Python float truthiness: the guards
"if self.shares" and "elif self.cash" test the fields against zero. -/
def react_to_pe (inv : Investor) (pe market_price : ℚ) : Option Investor :=
  if inv.shares ≠ 0 ∧ pe > inv.sell_at then
    some (sell_all inv market_price)
  else if inv.cash ≠ 0 ∧ pe ≤ inv.buy_at then
    buy_all inv market_price
  else
    some inv

/-- The property claimed for post-trade states: exactly one of the cash
and shares fields is zero. -/
def exactlyOneZero (inv : Investor) : Prop :=
  (inv.cash = 0 ∧ inv.shares ≠ 0) ∨ (inv.cash ≠ 0 ∧ inv.shares = 0)

instance (inv : Investor) : Decidable (exactlyOneZero inv) := by
  unfold exactlyOneZero; exact inferInstance

/-! ## Dates and the price oracle (CapeValidator._get_market_price)

A date handed to the oracle is represented by its proleptic-Gregorian
ordinal n, as in CPython's datetime: date.weekday() is
(n + 6) % 7 with Monday = 0, and date - timedelta(1) is n - 1. -/

/-- Python date.weekday() on an ordinal: Monday is 0, Sunday is 6
(ordinal 1, the date 0001-01-01, is a Monday). -/
def wdOrd (n : ℕ) : ℕ := (n + 6) % 7

/-- One bounded round of the weekend-normalization loop at the top of
_get_market_price: step back one day while the day is a Saturday or a
Sunday.  Weekends are two days long, so the Python while loop iterates
at most twice; fuel 2 therefore reproduces it exactly on every date the
program can construct. -/
def stepBackWeekend : ℕ → ℕ → ℕ
  | 0, n => n
  | f + 1, n => if 4 < wdOrd n then stepBackWeekend f (n - 1) else n

/-- The weekend normalization performed by _get_market_price before the
cache lookup. -/
def normalizeWeekend (n : ℕ) : ℕ := stepBackWeekend 2 n

/-- The price cache self.index_cache: a Python dict from date to price,
modelled as a key-value list, newest entry first. -/
abbrev Cache := List (ℕ × ℚ)

/-- Reading the Python dict: the "date in self.index_cache" test and the
subscript access, as one partial lookup. -/
def lookupCache : Cache → ℕ → Option ℚ
  | [], _ => none
  | (k, v) :: rest, d => if d = k then some v else lookupCache rest d

/-- CapeValidator._get_market_price.  The provider argument models the
external call get_data_yahoo followed by the Adj Close extraction: none
stands for the caught IndexError/OSError on a day without data.
The first component is the Python result (none = the exception re-raised
once try_next is exhausted) together with the updated cache; the second
component is the list of dates on which the external provider was
invoked, ghost data recorded to state the no-external-call properties.
Note the fallback branch returns the recursive result directly, so the
cache write self.index_cache[date] = price runs only in the frame whose
own fetch succeeded. -/
def get_market_price (provider : ℕ → Option ℚ) :
    ℕ → Cache → ℕ → Option (ℚ × Cache) × List ℕ
  | try_next, cache, date =>
    let d := normalizeWeekend date
    match lookupCache cache d with
    | some price => (some (price, cache), [])
    | none =>
      match provider d with
      | some price => (some (price, (d, price) :: cache), [d])
      | none =>
        match try_next with
        | 0 => (none, [d])
        | t + 1 =>
          let r := get_market_price provider t cache (d - 1)
          (r.1, d :: r.2)

/-! ## The simulation loop (CapeValidator.calculate_worth_vs_time)

A valuation point of self.pe_array is a pair of the evaluation date
(by ordinal) and the CAPE ratio.  The numpy matrices are written column
by column, one column per period; we collect the run period-major:
rows[i][j] is the (net worth, shares, cash) triple recorded for
investor j in period i, and prices[i] is the market price resolved for
period i (the value of the local variable market_price). -/

/-- The inner "for j, investor in enumerate(self.investors)" loop of one
period: each investor gets paid and reacts; a ZeroDivisionError escaping
react_to_pe aborts the run. -/
def stepAll : List Investor → ℚ → ℚ → Option (List Investor)
  | [], _, _ => some []
  | inv :: rest, pe, price =>
    match react_to_pe (get_paid inv) pe price with
    | none => none
    | some inv' =>
      match stepAll rest pe price with
      | none => none
      | some rest' => some (inv' :: rest')

/-- The period loop of calculate_worth_vs_time.  Returns the final
investor states, the final cache, the recorded rows (period-major) and
the price used in each period; none when an exception (exhausted price
retries, or a zero price in a buy) unwinds the run. -/
def runPeriods (provider : ℕ → Option ℚ) :
    List (ℕ × ℚ) → List Investor → Cache →
    Option (List Investor × Cache × List (List (ℚ × ℚ × ℚ)) × List ℚ)
  | [], invs, cache => some (invs, cache, [], [])
  | (date, pe) :: rest, invs, cache =>
    match (get_market_price provider 2 cache date).1 with
    | none => none
    | some (price, cache') =>
      match stepAll invs pe price with
      | none => none
      | some invs' =>
        match runPeriods provider rest invs' cache' with
        | none => none
        | some (invsF, cacheF, rows, prices) =>
          some (invsF, cacheF,
            (invs'.map fun inv => (get_net_worth inv price, inv.shares, inv.cash)) :: rows,
            price :: prices)

/-- CapeValidator.calculate_worth_vs_time: run every period, then call
save_index_cache exactly once.  The second component is the sequence of
cache snapshots written to disk (one pickle.dump per element); an
exception raised inside the loop propagates before the save line runs,
leaving that sequence empty. -/
def calculate_worth_vs_time (provider : ℕ → Option ℚ) (pts : List (ℕ × ℚ))
    (invs : List Investor) (cache : Cache) :
    Option (List Investor × Cache × List (List (ℚ × ℚ × ℚ)) × List ℚ) × List Cache :=
  match runPeriods provider pts invs cache with
  | none => (none, [])
  | some out => (some out, [out.2.1])

/-- Specification artifact for the ordering claim: the trajectory one
investor follows through the run, one period at a time — income, then
reaction at that period's ratio and price, then the recorded triple
(net worth, shares, cash) — independent of the other investors. -/
def trajInv (inv : Investor) : List (ℚ × ℚ) → Option (List (ℚ × ℚ × ℚ))
  | [] => some []
  | (pe, price) :: rest =>
    match react_to_pe (get_paid inv) pe price with
    | none => none
    | some inv' =>
      match trajInv inv' rest with
      | none => none
      | some tr => some ((get_net_worth inv' price, inv'.shares, inv'.cash) :: tr)

/-! ## The calendar and the date resolver (CapeValidator._parse_pe_date)

The arithmetic below reproduces the internals of CPython's datetime
module: _is_leap, _days_in_month, _days_before_month, _days_before_year
and _ymd2ord; date.weekday() is (toordinal + 6) % 7, and adding one
timedelta day is the calendar successor. -/

/-- CPython datetime._is_leap. -/
def isLeap (y : ℕ) : Bool := y % 4 == 0 && (y % 100 != 0 || y % 400 == 0)

/-- CPython datetime._days_in_month. -/
def daysInMonth (y m : ℕ) : ℕ :=
  if m = 2 then (if isLeap y then 29 else 28)
  else if m = 4 ∨ m = 6 ∨ m = 9 ∨ m = 11 then 30
  else 31

/-- CPython datetime._days_before_month: days of year y strictly before
month m. -/
def daysBeforeMonth (y : ℕ) : ℕ → ℕ
  | 0 => 0
  | 1 => 0
  | m + 2 => daysBeforeMonth y (m + 1) + daysInMonth y (m + 1)

/-- CPython datetime._days_before_year. -/
def daysBeforeYear (y : ℕ) : ℕ :=
  (y - 1) * 365 + (y - 1) / 4 - (y - 1) / 100 + (y - 1) / 400

/-- A calendar date, as CPython's datetime.date (the time-of-day part of
the datetimes in capeval.py is always midnight and never read). -/
structure Date where
  year : ℕ
  month : ℕ
  day : ℕ
deriving DecidableEq

/-- CPython datetime._ymd2ord, the proleptic-Gregorian ordinal. -/
def toOrdinal (dt : Date) : ℕ :=
  daysBeforeYear dt.year + daysBeforeMonth dt.year dt.month + dt.day

/-- date.weekday(): Monday is 0, Sunday is 6. -/
def weekday (dt : Date) : ℕ := (toOrdinal dt + 6) % 7

/-- date + timedelta(1), in calendar form. -/
def nextDay (dt : Date) : Date :=
  if dt.day < daysInMonth dt.year dt.month then ⟨dt.year, dt.month, dt.day + 1⟩
  else if dt.month < 12 then ⟨dt.year, dt.month + 1, 1⟩
  else ⟨dt.year + 1, 1, 1⟩

/-- date + timedelta(n). -/
def addDays : ℕ → Date → Date
  | 0, dt => dt
  | n + 1, dt => addDays n (nextDay dt)

/-- The while loop of _parse_pe_date, with fuel: advance one day while
the walked date is still in the starting month or falls on a weekend.
Fuel 10 always suffices (at most four days to leave the month from day
28, then at most two to clear a weekend); this is proved, not assumed,
in the date-resolver theorem below. -/
def resolveLoop (m0 : ℕ) : ℕ → Date → Option Date
  | fuel, dt =>
    if dt.month = m0 ∨ 4 < weekday dt then
      match fuel with
      | 0 => none
      | f + 1 => resolveLoop m0 f (nextDay dt)
    else some dt

/-- CapeValidator._parse_pe_date on a parsed "m0/y0" label: strptime
with format %m/%Y yields the first of the month, timedelta(27) moves to
day 28, then the walk runs. -/
def parse_pe_date (m0 y0 : ℕ) : Option Date :=
  resolveLoop m0 10 (addDays 27 ⟨y0, m0, 1⟩)

/-! ## Concrete scenario data used by the witnesses -/

/-- Provider used by the C5 witness: data only on day 9. -/
def providerC5 : ℕ → Option ℚ := fun n => if n = 9 then some 5 else none

/-- Provider used by the C10 witness: data only on day 10. -/
def providerC10 : ℕ → Option ℚ := fun n => if n = 10 then some 5 else none

/-- Provider used by the C4 witness: every day closes at 10. -/
def providerC4 : ℕ → Option ℚ := fun _ => some 10

/-- Investor used by the C4 witness. -/
def invC4 : Investor := Investor.mk 15 15 100 100 0 50

/-! ## Claims about the investor account -/

/-- C1: react_to_pe evaluates the sell branch first, with a strict
comparison against sell_at, then the buy branch, else holds.  For an
account respecting the data-model invariants cash ≥ 0 and shares ≥ 0 and
for a nonzero price (the buy branch divides by it): if shares > 0 and
the ratio is strictly above sell_at the account liquidates (cash becomes
cash + shares * price, shares becomes 0); otherwise, if cash > 0 and the
ratio is at most buy_at, it acquires all (shares becomes
shares + cash / price, cash becomes 0); otherwise nothing changes. -/
theorem react_to_pe_cases (inv : Investor) (pe price : ℚ)
    (hc : 0 ≤ inv.cash) (hs : 0 ≤ inv.shares) (hp : price ≠ 0) :
    (0 < inv.shares ∧ pe > inv.sell_at →
      react_to_pe inv pe price =
        some { inv with cash := inv.cash + inv.shares * price, shares := 0 }) ∧
    (¬(0 < inv.shares ∧ pe > inv.sell_at) → 0 < inv.cash ∧ pe ≤ inv.buy_at →
      react_to_pe inv pe price =
        some { inv with shares := inv.shares + inv.cash / price, cash := 0 }) ∧
    (¬(0 < inv.shares ∧ pe > inv.sell_at) → ¬(0 < inv.cash ∧ pe ≤ inv.buy_at) →
      react_to_pe inv pe price = some inv) := by
  have hs' : inv.shares ≠ 0 ↔ 0 < inv.shares :=
    ⟨fun h => lt_of_le_of_ne hs (Ne.symm h), fun h => h.ne'⟩
  have hc' : inv.cash ≠ 0 ↔ 0 < inv.cash :=
    ⟨fun h => lt_of_le_of_ne hc (Ne.symm h), fun h => h.ne'⟩
  refine ⟨?_, ?_, ?_⟩
  · rintro ⟨h1, h2⟩
    rw [react_to_pe, if_pos ⟨hs'.mpr h1, h2⟩]
    simp [sell_all, mul_comm]
  · intro h1 h2
    rw [react_to_pe, if_neg (fun hcon => h1 ⟨hs'.mp hcon.1, hcon.2⟩),
      if_pos ⟨hc'.mpr h2.1, h2.2⟩, buy_all, if_neg hp]
  · intro h1 h2
    rw [react_to_pe, if_neg (fun hcon => h1 ⟨hs'.mp hcon.1, hcon.2⟩),
      if_neg (fun hcon => h2 ⟨hc'.mp hcon.1, hcon.2⟩)]

/-- C1 witness: the account (buy 15, sell 15, cash 100, 5 shares) at
ratio 20 and price 10 — the sell branch applies. -/
theorem react_to_pe_cases_witness :
    (0 < (Investor.mk 15 15 100 100 5 50).shares ∧
        (20 : ℚ) > (Investor.mk 15 15 100 100 5 50).sell_at →
      react_to_pe (Investor.mk 15 15 100 100 5 50) 20 10 =
        some (Investor.mk 15 15 100 (100 + 5 * 10) 0 50)) ∧
    (¬(0 < (Investor.mk 15 15 100 100 5 50).shares ∧
        (20 : ℚ) > (Investor.mk 15 15 100 100 5 50).sell_at) →
      0 < (Investor.mk 15 15 100 100 5 50).cash ∧
        (20 : ℚ) ≤ (Investor.mk 15 15 100 100 5 50).buy_at →
      react_to_pe (Investor.mk 15 15 100 100 5 50) 20 10 =
        some (Investor.mk 15 15 100 0 (5 + 100 / 10) 50)) ∧
    (¬(0 < (Investor.mk 15 15 100 100 5 50).shares ∧
        (20 : ℚ) > (Investor.mk 15 15 100 100 5 50).sell_at) →
      ¬(0 < (Investor.mk 15 15 100 100 5 50).cash ∧
        (20 : ℚ) ≤ (Investor.mk 15 15 100 100 5 50).buy_at) →
      react_to_pe (Investor.mk 15 15 100 100 5 50) 20 10 =
        some (Investor.mk 15 15 100 100 5 50)) :=
  react_to_pe_cases (Investor.mk 15 15 100 100 5 50) 20 10
    (by norm_num) (by norm_num) (by norm_num)

/-- C2 counterexample: the claim "for every price ≤ 0, buy_all fails"
is false — at the negative price -1 the default account (cash 10000)
happily buys, ending with -10000 shares and no error. -/
theorem buy_all_negative_price_cex :
    (-1 : ℚ) ≤ 0 ∧
    buy_all (Investor.mk 15 15 10000 10000 0 2000) (-1) =
      some (Investor.mk 15 15 10000 0 (-10000) 2000) := by
  constructor
  · norm_num
  · rw [buy_all, if_neg (by norm_num)]
    norm_num

/-- C2 amended: buy_all fails exactly at price zero (Python raises
ZeroDivisionError there); for every nonzero price — negative prices
included, there is no InvalidPrice guard — it sets shares to
shares + cash / price and cash to 0. -/
theorem buy_all_amended (inv : Investor) (price : ℚ) :
    (price = 0 → buy_all inv price = none) ∧
    (price ≠ 0 → buy_all inv price =
      some { inv with shares := inv.shares + inv.cash / price, cash := 0 }) := by
  constructor
  · intro h; rw [buy_all, if_pos h]
  · intro h; rw [buy_all, if_neg h]

/-- C2 witness for the amended claim, at price 2. -/
theorem buy_all_amended_witness :
    ((2 : ℚ) = 0 → buy_all (Investor.mk 15 15 100 100 0 50) 2 = none) ∧
    ((2 : ℚ) ≠ 0 → buy_all (Investor.mk 15 15 100 100 0 50) 2 =
      some (Investor.mk 15 15 100 0 (0 + 100 / 2) 50)) :=
  buy_all_amended (Investor.mk 15 15 100 100 0 50) 2

/-- C7 counterexample: selling an account that holds 5 shares but no
cash at price 0 drives both cash and shares to zero, so "exactly one of
cash and shares is zero immediately after sell_all" fails for this
account/price pair. -/
theorem sell_all_exactlyOneZero_cex :
    ¬ exactlyOneZero (sell_all (Investor.mk 15 15 10 0 5 2) 0) := by
  norm_num [exactlyOneZero, sell_all]

/-- C7 amended: for an account with cash ≥ 0 and shares ≥ 0 that is not
entirely empty, and for a strictly positive price, exactly one of cash
and shares is zero immediately after sell_all, and likewise after a
(necessarily successful) buy_all. -/
theorem trade_exactlyOneZero (inv : Investor) (price : ℚ)
    (hc : 0 ≤ inv.cash) (hs : 0 ≤ inv.shares)
    (hne : ¬(inv.cash = 0 ∧ inv.shares = 0)) (hp : 0 < price) :
    exactlyOneZero (sell_all inv price) ∧
    ∃ inv', buy_all inv price = some inv' ∧ exactlyOneZero inv' := by
  have key : (0 : ℚ) < inv.cash ∨ (0 : ℚ) < inv.shares := by
    rcases eq_or_lt_of_le hc with h | h
    · rcases eq_or_lt_of_le hs with h2 | h2
      · exact absurd ⟨h.symm, h2.symm⟩ hne
      · exact Or.inr h2
    · exact Or.inl h
  have hp' : price ≠ 0 := hp.ne'
  constructor
  · right
    have hpos : 0 < inv.cash + price * inv.shares := by
      rcases key with h | h
      · have h2 : 0 ≤ price * inv.shares := mul_nonneg hp.le hs
        linarith
      · have h2 : 0 < price * inv.shares := mul_pos hp h
        linarith
    exact ⟨by simpa [sell_all] using hpos.ne', by simp [sell_all]⟩
  · refine ⟨_, by rw [buy_all, if_neg hp'], ?_⟩
    left
    have hpos : 0 < inv.shares + inv.cash / price := by
      rcases key with h | h
      · have h2 : 0 < inv.cash / price := div_pos h hp
        linarith
      · have h2 : 0 ≤ inv.cash / price := div_nonneg hc hp.le
        linarith
    exact ⟨rfl, by simpa using hpos.ne'⟩

/-- C7 witness for the amended claim: account with cash 100 and 5
shares, price 10. -/
theorem trade_exactlyOneZero_witness :
    exactlyOneZero (sell_all (Investor.mk 15 15 100 100 5 50) 10) ∧
    ∃ inv', buy_all (Investor.mk 15 15 100 100 5 50) 10 = some inv' ∧
      exactlyOneZero inv' :=
  trade_exactlyOneZero (Investor.mk 15 15 100 100 5 50) 10
    (by norm_num) (by norm_num) (by norm_num) (by norm_num)

/-- C8: at any positive price, liquidating and immediately re-acquiring
at the same price leaves net worth exactly unchanged (exact rational
arithmetic; the float implementation matches up to rounding). -/
theorem sell_then_buy_preserves_worth (inv : Investor) (price : ℚ) (hp : 0 < price) :
    ∃ inv', buy_all (sell_all inv price) price = some inv' ∧
      get_net_worth inv' price = get_net_worth inv price := by
  have hp' : price ≠ 0 := hp.ne'
  refine ⟨_, by rw [buy_all, if_neg hp'], ?_⟩
  simp only [get_net_worth, sell_all]
  field_simp
  ring

/-- C8 witness: account with cash 100 and 5 shares, price 10. -/
theorem sell_then_buy_preserves_worth_witness :
    ∃ inv', buy_all (sell_all (Investor.mk 15 15 100 100 5 50) 10) 10 = some inv' ∧
      get_net_worth inv' 10 = get_net_worth (Investor.mk 15 15 100 100 5 50) 10 :=
  sell_then_buy_preserves_worth (Investor.mk 15 15 100 100 5 50) 10 (by norm_num)

/-! ## Claims about the price oracle -/

theorem stepBackWeekend_le (f : ℕ) : ∀ n, stepBackWeekend f n ≤ n := by
  induction f with
  | zero => intro n; exact le_rfl
  | succ f ih =>
    intro n
    rw [stepBackWeekend]
    split
    · exact le_trans (ih (n - 1)) (Nat.sub_le n 1)
    · exact le_rfl

theorem normalizeWeekend_le (n : ℕ) : normalizeWeekend n ≤ n :=
  stepBackWeekend_le 2 n

theorem normalizeWeekend_eq_self (n : ℕ) (h : wdOrd n ≤ 4) :
    normalizeWeekend n = n := by
  have h' : ¬ 4 < wdOrd n := by omega
  simp [normalizeWeekend, stepBackWeekend, h']

/-- Unfolding equation for get_market_price, stated without the
pattern-matching wrapper so that individual branches can be rewritten. -/
theorem gmp_eq (provider : ℕ → Option ℚ) (t : ℕ) (cache : Cache) (date : ℕ) :
    get_market_price provider t cache date =
      (match lookupCache cache (normalizeWeekend date) with
       | some price => (some (price, cache), [])
       | none =>
         match provider (normalizeWeekend date) with
         | some price =>
             (some (price, (normalizeWeekend date, price) :: cache), [normalizeWeekend date])
         | none =>
           match t with
           | 0 => (none, [normalizeWeekend date])
           | t' + 1 =>
             ((get_market_price provider t' cache (normalizeWeekend date - 1)).1,
               normalizeWeekend date ::
                 (get_market_price provider t' cache (normalizeWeekend date - 1)).2)) := by
  rw [get_market_price.eq_def]

/-- Branch lemma: a cache hit on the normalized date. -/
theorem gmp_cached (provider : ℕ → Option ℚ) (t : ℕ) (cache : Cache) (date : ℕ) (p : ℚ)
    (h : lookupCache cache (normalizeWeekend date) = some p) :
    get_market_price provider t cache date = (some (p, cache), []) := by
  rw [gmp_eq, h]

/-- Branch lemma: a cache miss followed by a successful fetch. -/
theorem gmp_fetch (provider : ℕ → Option ℚ) (t : ℕ) (cache : Cache) (date : ℕ) (p : ℚ)
    (h1 : lookupCache cache (normalizeWeekend date) = none)
    (h2 : provider (normalizeWeekend date) = some p) :
    get_market_price provider t cache date =
      (some (p, (normalizeWeekend date, p) :: cache), [normalizeWeekend date]) := by
  rw [gmp_eq, h1, h2]

/-- Branch lemma: a cache miss and a failed fetch, with retry budget
left. -/
theorem gmp_retry (provider : ℕ → Option ℚ) (t : ℕ) (cache : Cache) (date : ℕ)
    (h1 : lookupCache cache (normalizeWeekend date) = none)
    (h2 : provider (normalizeWeekend date) = none) :
    get_market_price provider (t + 1) cache date =
      ((get_market_price provider t cache (normalizeWeekend date - 1)).1,
        normalizeWeekend date ::
          (get_market_price provider t cache (normalizeWeekend date - 1)).2) := by
  rw [gmp_eq, h1, h2]

/-- Branch lemma: a cache miss and a failed fetch with the budget
exhausted re-raise the exception. -/
theorem gmp_exhausted (provider : ℕ → Option ℚ) (cache : Cache) (date : ℕ)
    (h1 : lookupCache cache (normalizeWeekend date) = none)
    (h2 : provider (normalizeWeekend date) = none) :
    get_market_price provider 0 cache date = (none, [normalizeWeekend date]) := by
  rw [gmp_eq, h1, h2]

/-- C5: if the provider has no data for the weekday dates D and D - 1
but returns p for the weekday date D - 2, and none of the three dates is
cached, then resolving D with the default retry budget 2 succeeds with p
and the cache afterwards maps the date ultimately used, D - 2, to p. -/
theorem resolve_retry_budget (provider : ℕ → Option ℚ) (cache : Cache) (D : ℕ) (p : ℚ)
    (hw0 : wdOrd D ≤ 4) (hw1 : wdOrd (D - 1) ≤ 4) (hw2 : wdOrd (D - 2) ≤ 4)
    (hc0 : lookupCache cache D = none) (hc1 : lookupCache cache (D - 1) = none)
    (hc2 : lookupCache cache (D - 2) = none)
    (hp0 : provider D = none) (hp1 : provider (D - 1) = none)
    (hp2 : provider (D - 2) = some p) :
    (get_market_price provider 2 cache D).1 = some (p, (D - 2, p) :: cache) ∧
    lookupCache ((D - 2, p) :: cache) (D - 2) = some p := by
  have e0 := normalizeWeekend_eq_self D hw0
  have e1 := normalizeWeekend_eq_self (D - 1) hw1
  have e2 := normalizeWeekend_eq_self (D - 2) hw2
  have esub : D - 1 - 1 = D - 2 := by omega
  have hC0 : lookupCache cache (normalizeWeekend D) = none := by rw [e0]; exact hc0
  have hP0 : provider (normalizeWeekend D) = none := by rw [e0]; exact hp0
  have hC1 : lookupCache cache (normalizeWeekend (D - 1)) = none := by rw [e1]; exact hc1
  have hP1 : provider (normalizeWeekend (D - 1)) = none := by rw [e1]; exact hp1
  have hC2 : lookupCache cache (normalizeWeekend (D - 2)) = none := by rw [e2]; exact hc2
  have hP2 : provider (normalizeWeekend (D - 2)) = some p := by rw [e2]; exact hp2
  constructor
  · rw [gmp_retry provider 1 cache D hC0 hP0]
    simp only [e0]
    rw [gmp_retry provider 0 cache (D - 1) hC1 hP1]
    simp only [e1, esub]
    rw [gmp_fetch provider 0 cache (D - 2) p hC2 hP2]
    simp only [e2]
  · simp [lookupCache]

/-- C5 witness: ordinals 11, 10, 9 are a Thursday, Wednesday and
Tuesday; the provider fails on 11 and 10 and yields 5 on 9. -/
theorem resolve_retry_budget_witness :
    (get_market_price providerC5 2 [] 11).1 = some (5, [(9, 5)]) ∧
    lookupCache [(9, 5)] 9 = some 5 :=
  resolve_retry_budget providerC5 [] 11 5 (by decide) (by decide) (by decide)
    rfl rfl rfl (by decide) (by decide) (by decide)

/-- C6: resolving a date whose weekend-normalized form is already a key
of the cache returns the cached price, leaves the cache unchanged, and
never invokes the external provider (the recorded list of provider
invocations is empty), whatever the provider and retry budget. -/
theorem resolve_cached_no_provider (provider : ℕ → Option ℚ) (t : ℕ) (cache : Cache)
    (D : ℕ) (p : ℚ) (h : lookupCache cache (normalizeWeekend D) = some p) :
    (get_market_price provider t cache D).1 = some (p, cache) ∧
    (get_market_price provider t cache D).2 = [] := by
  rw [gmp_cached provider t cache D p h]
  exact ⟨rfl, rfl⟩

/-- C6 witness: ordinal 13 is a Saturday, normalizing to the Friday 12,
which is cached with price 9; the provider never has data, yet the
resolution succeeds from the cache without consulting it. -/
theorem resolve_cached_no_provider_witness :
    (get_market_price (fun _ => none) 2 [(12, 9)] 13).1 = some (9, [(12, 9)]) ∧
    (get_market_price (fun _ => none) 2 [(12, 9)] 13).2 = [] :=
  resolve_cached_no_provider (fun _ => none) 2 [(12, 9)] 13 9 (by decide)

/-- Any successful resolution either served from the cache (cache
unchanged) or added exactly one entry, keyed by a date no later than
the weekend-normalized request. -/
theorem get_market_price_cache_growth (provider : ℕ → Option ℚ) :
    ∀ (t : ℕ) (cache : Cache) (d : ℕ) (p : ℚ) (cache' : Cache),
      (get_market_price provider t cache d).1 = some (p, cache') →
      cache' = cache ∨
        ∃ du, du ≤ normalizeWeekend d ∧ lookupCache cache du = none ∧
          cache' = (du, p) :: cache := by
  intro t
  induction t with
  | zero =>
    intro cache d p cache' h
    rcases hlu : lookupCache cache (normalizeWeekend d) with _ | q
    · rcases hpv : provider (normalizeWeekend d) with _ | q
      · rw [gmp_exhausted provider cache d hlu hpv] at h
        simp at h
      · rw [gmp_fetch provider 0 cache d q hlu hpv] at h
        simp only [Option.some.injEq, Prod.mk.injEq] at h
        obtain ⟨rfl, h2⟩ := h
        exact Or.inr ⟨normalizeWeekend d, le_rfl, hlu, h2.symm⟩
    · rw [gmp_cached provider 0 cache d q hlu] at h
      simp only [Option.some.injEq, Prod.mk.injEq] at h
      exact Or.inl h.2.symm
  | succ t ih =>
    intro cache d p cache' h
    rcases hlu : lookupCache cache (normalizeWeekend d) with _ | q
    · rcases hpv : provider (normalizeWeekend d) with _ | q
      · rw [gmp_retry provider t cache d hlu hpv] at h
        rcases ih cache (normalizeWeekend d - 1) p cache' h with h2 | ⟨du, hdu, hlu2, hca⟩
        · exact Or.inl h2
        · refine Or.inr ⟨du, ?_, hlu2, hca⟩
          calc du ≤ normalizeWeekend (normalizeWeekend d - 1) := hdu
            _ ≤ normalizeWeekend d - 1 := normalizeWeekend_le _
            _ ≤ normalizeWeekend d := Nat.sub_le _ _
      · rw [gmp_fetch provider (t + 1) cache d q hlu hpv] at h
        simp only [Option.some.injEq, Prod.mk.injEq] at h
        obtain ⟨rfl, h2⟩ := h
        exact Or.inr ⟨normalizeWeekend d, le_rfl, hlu, h2.symm⟩
    · rw [gmp_cached provider (t + 1) cache d q hlu] at h
      simp only [Option.some.injEq, Prod.mk.injEq] at h
      exact Or.inl h.2.symm

/-- C10: when resolving a weekday date D that is not cached and for
which the provider itself fails succeeds through the backward fallback,
the cache gains entries only for strictly earlier dates — never for D —
and a subsequent resolution of D invokes the provider on D again (its
invocation list starts with D) instead of hitting the cache. -/
theorem fallback_never_caches_request (provider : ℕ → Option ℚ) (cache : Cache)
    (D : ℕ) (p : ℚ) (cache' : Cache)
    (hw : wdOrd D ≤ 4) (hc : lookupCache cache D = none) (hpv : provider D = none)
    (h : (get_market_price provider 2 cache D).1 = some (p, cache')) :
    lookupCache cache' D = none ∧
    (∀ d q, lookupCache cache' d = some q → lookupCache cache d = some q ∨ d < D) ∧
    ∃ rest, (get_market_price provider 2 cache' D).2 = D :: rest := by
  have e0 := normalizeWeekend_eq_self D hw
  have hD : 0 < D := by
    rcases Nat.eq_zero_or_pos D with h0 | h0
    · subst h0
      norm_num [wdOrd] at hw
    · exact h0
  have hC0 : lookupCache cache (normalizeWeekend D) = none := by rw [e0]; exact hc
  have hP0 : provider (normalizeWeekend D) = none := by rw [e0]; exact hpv
  rw [gmp_retry provider 1 cache D hC0 hP0] at h
  simp only [e0] at h
  have growth := get_market_price_cache_growth provider 1 cache (D - 1) p cache' h
  have hnotD : lookupCache cache' D = none := by
    rcases growth with h2 | ⟨du, hdu, _, hca⟩
    · rw [h2]; exact hc
    · have hlt : du < D :=
        lt_of_le_of_lt (le_trans hdu (normalizeWeekend_le _)) (by omega)
      rw [hca, lookupCache, if_neg (by omega)]
      exact hc
  refine ⟨hnotD, ?_, ?_⟩
  · intro d q hdq
    rcases growth with h2 | ⟨du, hdu, _, hca⟩
    · rw [h2] at hdq; exact Or.inl hdq
    · have hlt : du < D :=
        lt_of_le_of_lt (le_trans hdu (normalizeWeekend_le _)) (by omega)
      rw [hca, lookupCache] at hdq
      by_cases hd : d = du
      · exact Or.inr (by omega)
      · rw [if_neg hd] at hdq
        exact Or.inl hdq
  · have hC0' : lookupCache cache' (normalizeWeekend D) = none := by
      rw [e0]; exact hnotD
    have hP0' : provider (normalizeWeekend D) = none := hP0
    refine ⟨(get_market_price provider 1 cache' (D - 1)).2, ?_⟩
    rw [gmp_retry provider 1 cache' D hC0' hP0']
    simp [e0]

/-- C10 witness: ordinal 11 (a Thursday) resolves via the fallback at
ordinal 10, leaving 11 uncached, so resolving 11 again asks the
provider about 11 once more. -/
theorem fallback_never_caches_request_witness :
    lookupCache [(10, 5)] 11 = none ∧
    (∀ d q, lookupCache [(10, 5)] d = some q → lookupCache [] d = some q ∨ d < 11) ∧
    ∃ rest, (get_market_price providerC10 2 [(10, 5)] 11).2 = 11 :: rest :=
  fallback_never_caches_request providerC10 [] 11 5 [(10, 5)]
    (by decide) rfl (by decide) (by decide)

/-! ## Claims about the simulation loop -/

theorem runPeriods_nil (provider : ℕ → Option ℚ) (invs : List Investor) (cache : Cache) :
    runPeriods provider [] invs cache = some (invs, cache, [], []) := rfl

/-- Unfolding equation for one period of the loop. -/
theorem runPeriods_cons (provider : ℕ → Option ℚ) (date : ℕ) (pe : ℚ)
    (rest : List (ℕ × ℚ)) (invs : List Investor) (cache : Cache) :
    runPeriods provider ((date, pe) :: rest) invs cache =
      (match (get_market_price provider 2 cache date).1 with
       | none => none
       | some (price, cache') =>
         match stepAll invs pe price with
         | none => none
         | some invs' =>
           match runPeriods provider rest invs' cache' with
           | none => none
           | some (invsF, cacheF, rows, prices) =>
             some (invsF, cacheF,
               (invs'.map fun inv => (get_net_worth inv price, inv.shares, inv.cash)) :: rows,
               price :: prices)) := by
  rw [runPeriods.eq_def]

theorem stepAll_length (pe price : ℚ) :
    ∀ (invs invs' : List Investor), stepAll invs pe price = some invs' →
      invs'.length = invs.length := by
  intro invs
  induction invs with
  | nil =>
    intro invs' h
    simp only [stepAll, Option.some.injEq] at h
    rw [← h]
  | cons inv rest ih =>
    intro invs' h
    simp only [stepAll] at h
    split at h
    · exact absurd h (by simp)
    · split at h
      · exact absurd h (by simp)
      · simp only [Option.some.injEq] at h
        rw [← h]
        next rest1 heq => simp [ih rest1 heq]

theorem stepAll_get? (pe price : ℚ) :
    ∀ (invs invs' : List Investor), stepAll invs pe price = some invs' →
      ∀ j, invs'.get? j =
        (invs.get? j).bind fun inv => react_to_pe (get_paid inv) pe price := by
  intro invs
  induction invs with
  | nil =>
    intro invs' h j
    simp only [stepAll, Option.some.injEq] at h
    rw [← h]
    simp
  | cons inv rest ih =>
    intro invs' h j
    simp only [stepAll] at h
    rcases hr : react_to_pe (get_paid inv) pe price with _ | inv1
    · simp only [hr] at h
      exact Option.noConfusion h
    · simp only [hr] at h
      rcases hs : stepAll rest pe price with _ | rest1
      · simp only [hs] at h
        exact Option.noConfusion h
      · simp only [hs, Option.some.injEq] at h
        rw [← h]
        cases j with
        | zero => simp [hr]
        | succ j => simpa using ih rest1 hs j

theorem runPeriods_shape (provider : ℕ → Option ℚ) :
    ∀ (pts : List (ℕ × ℚ)) (invs : List Investor) (cache : Cache)
      (invsF : List Investor) (cacheF : Cache)
      (rows : List (List (ℚ × ℚ × ℚ))) (prices : List ℚ),
      runPeriods provider pts invs cache = some (invsF, cacheF, rows, prices) →
      rows.length = pts.length ∧ prices.length = pts.length ∧
        ∀ row ∈ rows, row.length = invs.length := by
  intro pts
  induction pts with
  | nil =>
    intro invs cache invsF cacheF rows prices h
    rw [runPeriods_nil] at h
    simp only [Option.some.injEq, Prod.mk.injEq] at h
    obtain ⟨-, -, hrows, hprices⟩ := h
    rw [← hrows, ← hprices]
    simp
  | cons pt rest ih =>
    intro invs cache invsF cacheF rows prices h
    obtain ⟨date, pe⟩ := pt
    rw [runPeriods_cons] at h
    split at h
    · exact absurd h (by simp)
    · next price cache' hgmp =>
      split at h
      · exact absurd h (by simp)
      · next invs' hstep =>
        split at h
        · exact absurd h (by simp)
        · next invsF1 cacheF1 rows1 prices1 hrun =>
          simp only [Option.some.injEq, Prod.mk.injEq] at h
          obtain ⟨-, -, hrows, hprices⟩ := h
          obtain ⟨hl1, hl2, hl3⟩ := ih invs' cache' invsF1 cacheF1 rows1 prices1 hrun
          rw [← hrows, ← hprices]
          refine ⟨by simp [hl1], by simp [hl2], ?_⟩
          intro row hrow
          rcases List.mem_cons.mp hrow with h1 | h1
          · rw [h1]
            simp [stepAll_length pe price invs invs' hstep]
          · rw [hl3 row h1, stepAll_length pe price invs invs' hstep]

theorem runPeriods_traj (provider : ℕ → Option ℚ) :
    ∀ (pts : List (ℕ × ℚ)) (invs : List Investor) (cache : Cache)
      (invsF : List Investor) (cacheF : Cache)
      (rows : List (List (ℚ × ℚ × ℚ))) (prices : List ℚ),
      runPeriods provider pts invs cache = some (invsF, cacheF, rows, prices) →
      ∀ j (hj : j < invs.length),
        trajInv (invs.get ⟨j, hj⟩) ((pts.map Prod.snd).zip prices) =
          some (rows.filterMap fun row => row.get? j) := by
  intro pts
  induction pts with
  | nil =>
    intro invs cache invsF cacheF rows prices h j hj
    rw [runPeriods_nil] at h
    simp only [Option.some.injEq, Prod.mk.injEq] at h
    obtain ⟨-, -, hrows, hprices⟩ := h
    rw [← hrows]
    simp [trajInv]
  | cons pt rest ih =>
    intro invs cache invsF cacheF rows prices h j hj
    obtain ⟨date, pe⟩ := pt
    rw [runPeriods_cons] at h
    split at h
    · exact absurd h (by simp)
    · next price cache' hgmp =>
      split at h
      · exact absurd h (by simp)
      · next invs' hstep =>
        split at h
        · exact absurd h (by simp)
        · next invsF1 cacheF1 rows1 prices1 hrun =>
          simp only [Option.some.injEq, Prod.mk.injEq] at h
          obtain ⟨-, -, hrows, hprices⟩ := h
          rw [← hrows, ← hprices]
          have hj' : j < invs'.length := by
            rw [stepAll_length pe price invs invs' hstep]; exact hj
          have hget : react_to_pe (get_paid (invs.get ⟨j, hj⟩)) pe price =
              some (invs'.get ⟨j, hj'⟩) := by
            have h1 := stepAll_get? pe price invs invs' hstep j
            rw [List.get?_eq_get hj, List.get?_eq_get hj'] at h1
            simpa using h1.symm
          have hrowj : (invs'.map fun inv =>
              (get_net_worth inv price, inv.shares, inv.cash)).get? j =
              some (get_net_worth (invs'.get ⟨j, hj'⟩) price,
                (invs'.get ⟨j, hj'⟩).shares, (invs'.get ⟨j, hj'⟩).cash) := by
            rw [List.get?_map, List.get?_eq_get hj']
            rfl
          have htr : trajInv (invs'.get ⟨j, hj'⟩)
              (List.zipWith Prod.mk (rest.map Prod.snd) prices1) =
              some (rows1.filterMap fun row => row.get? j) := by
            simpa [List.zip] using ih invs' cache' invsF1 cacheF1 rows1 prices1 hrun j hj'
          simp only [List.map_cons, List.zip_cons_cons, trajInv, hget, List.zip,
            htr, List.filterMap_cons, hrowj]

theorem runPeriods_worth (provider : ℕ → Option ℚ) :
    ∀ (pts : List (ℕ × ℚ)) (invs : List Investor) (cache : Cache)
      (invsF : List Investor) (cacheF : Cache)
      (rows : List (List (ℚ × ℚ × ℚ))) (prices : List ℚ),
      runPeriods provider pts invs cache = some (invsF, cacheF, rows, prices) →
      ∀ i j w s c, ((rows.get? i).bind fun row => row.get? j) = some (w, s, c) →
        ∃ p, prices.get? i = some p ∧ w = c + s * p := by
  intro pts
  induction pts with
  | nil =>
    intro invs cache invsF cacheF rows prices h i j w s c hij
    rw [runPeriods_nil] at h
    simp only [Option.some.injEq, Prod.mk.injEq] at h
    obtain ⟨-, -, hrows, -⟩ := h
    rw [← hrows] at hij
    simp at hij
  | cons pt rest ih =>
    intro invs cache invsF cacheF rows prices h i j w s c hij
    obtain ⟨date, pe⟩ := pt
    rw [runPeriods_cons] at h
    split at h
    · exact absurd h (by simp)
    · next price cache' hgmp =>
      split at h
      · exact absurd h (by simp)
      · next invs' hstep =>
        split at h
        · exact absurd h (by simp)
        · next invsF1 cacheF1 rows1 prices1 hrun =>
          simp only [Option.some.injEq, Prod.mk.injEq] at h
          obtain ⟨-, -, hrows, hprices⟩ := h
          rw [← hrows] at hij
          rw [← hprices]
          cases i with
          | zero =>
            simp only [List.get?_cons_zero, Option.some_bind, List.get?_map] at hij
            rcases hj : invs'.get? j with _ | inv1
            · rw [hj] at hij; simp at hij
            · rw [hj] at hij
              simp only [Option.map_some', Option.some.injEq, Prod.mk.injEq,
                get_net_worth] at hij
              exact ⟨price, rfl, by rw [← hij.1, ← hij.2.1, ← hij.2.2]⟩
          | succ i =>
            simp only [List.get?_cons_succ] at hij ⊢
            exact ih invs' cache' invsF1 cacheF1 rows1 prices1 hrun i j w s c hij

/-- C4: a successful run fully populates the matrices (one row per
period, one entry per investor), each investor's recorded column is
exactly its income-react-record trajectory through the periods in
order — period i uses ratio i and the price resolved for period i —
and every recorded entry satisfies worth = cash + shares * price of its
period. -/
theorem run_records (provider : ℕ → Option ℚ) (pts : List (ℕ × ℚ))
    (invs : List Investor) (cache : Cache) (invsF : List Investor) (cacheF : Cache)
    (rows : List (List (ℚ × ℚ × ℚ))) (prices : List ℚ)
    (h : runPeriods provider pts invs cache = some (invsF, cacheF, rows, prices)) :
    rows.length = pts.length ∧ prices.length = pts.length ∧
    (∀ row ∈ rows, row.length = invs.length) ∧
    (∀ j (hj : j < invs.length),
      trajInv (invs.get ⟨j, hj⟩) ((pts.map Prod.snd).zip prices) =
        some (rows.filterMap fun row => row.get? j)) ∧
    (∀ i j w s c, ((rows.get? i).bind fun row => row.get? j) = some (w, s, c) →
      ∃ p, prices.get? i = some p ∧ w = c + s * p) := by
  obtain ⟨h1, h2, h3⟩ := runPeriods_shape provider pts invs cache invsF cacheF rows prices h
  exact ⟨h1, h2, h3,
    runPeriods_traj provider pts invs cache invsF cacheF rows prices h,
    runPeriods_worth provider pts invs cache invsF cacheF rows prices h⟩

/-- C4 witness: one period at ratio 20 and price 10 with one investor
(buy 15, sell 15, cash 100, no shares, income 50), who holds. -/
theorem run_records_witness :
    [[(get_net_worth (get_paid invC4) 10, (get_paid invC4).shares,
        (get_paid invC4).cash)]].length = [((11 : ℕ), (20 : ℚ))].length ∧
    [(10 : ℚ)].length = [((11 : ℕ), (20 : ℚ))].length ∧
    (∀ row ∈ [[(get_net_worth (get_paid invC4) 10, (get_paid invC4).shares,
        (get_paid invC4).cash)]], row.length = [invC4].length) ∧
    (∀ j (hj : j < [invC4].length),
      trajInv ([invC4].get ⟨j, hj⟩)
          (([((11 : ℕ), (20 : ℚ))].map Prod.snd).zip [(10 : ℚ)]) =
        some ([[(get_net_worth (get_paid invC4) 10, (get_paid invC4).shares,
          (get_paid invC4).cash)]].filterMap fun row => row.get? j)) ∧
    (∀ i j w s c,
      (([[(get_net_worth (get_paid invC4) 10, (get_paid invC4).shares,
          (get_paid invC4).cash)]].get? i).bind fun row => row.get? j) =
        some (w, s, c) →
      ∃ p, [(10 : ℚ)].get? i = some p ∧ w = c + s * p) :=
  run_records providerC4 [(11, 20)] [invC4] [] [get_paid invC4] [(11, 10)]
    [[(get_net_worth (get_paid invC4) 10, (get_paid invC4).shares, (get_paid invC4).cash)]]
    [10]
    (by
      have hreact : react_to_pe (get_paid invC4) 20 10 = some (get_paid invC4) := by
        norm_num [react_to_pe, get_paid, invC4]
      have hstep : stepAll [invC4] 20 10 = some [get_paid invC4] := by
        simp [stepAll, hreact]
      have hgmp : (get_market_price providerC4 2 [] 11).1 = some (10, [(11, 10)]) := rfl
      simp only [runPeriods_cons, hgmp, hstep, runPeriods_nil, List.map_cons,
        List.map_nil])

/-- C9: the cache is persisted exactly once per run, after all periods
have been processed (on success the write log is exactly the final
cache, and the matrices cover every period); when any period fails, the
run aborts before the save, so nothing is written and the cache entries
added during the run are lost. -/
theorem save_once_after_run (provider : ℕ → Option ℚ) (pts : List (ℕ × ℚ))
    (invs : List Investor) (cache : Cache) :
    ((calculate_worth_vs_time provider pts invs cache).1 = none →
      (calculate_worth_vs_time provider pts invs cache).2 = []) ∧
    (∀ invsF cacheF rows prices,
      (calculate_worth_vs_time provider pts invs cache).1 =
          some (invsF, cacheF, rows, prices) →
      (calculate_worth_vs_time provider pts invs cache).2 = [cacheF] ∧
      rows.length = pts.length) := by
  rcases hrun : runPeriods provider pts invs cache with _ | out
  · constructor
    · intro _
      simp [calculate_worth_vs_time, hrun]
    · intro invsF cacheF rows prices habs
      rw [calculate_worth_vs_time, hrun] at habs
      exact absurd habs (by simp)
  · obtain ⟨invsF0, cacheF0, rows0, prices0⟩ := out
    constructor
    · intro habs
      rw [calculate_worth_vs_time, hrun] at habs
      exact absurd habs (by simp)
    · intro invsF cacheF rows prices heq
      rw [calculate_worth_vs_time, hrun] at heq
      simp only [Option.some.injEq, Prod.mk.injEq] at heq
      obtain ⟨h1, h2, h3, h4⟩ := heq
      constructor
      · rw [calculate_worth_vs_time, hrun]
        simp [h2]
      · rw [← h3]
        exact (runPeriods_shape provider pts invs cache invsF0 cacheF0 rows0
          prices0 hrun).1

/-- C9 witness: with a provider that never has data, the single period
cannot resolve a price, the run aborts, and nothing is written. -/
theorem save_once_after_run_witness :
    (calculate_worth_vs_time (fun _ => none) [(11, 20)] [] []).2 = [] :=
  (save_once_after_run (fun _ => none) [(11, 20)] [] []).1 rfl

/-! ## Claims about the date resolver -/

theorem daysInMonth_ge (y m : ℕ) : 28 ≤ daysInMonth y m := by
  unfold daysInMonth
  split
  · split <;> omega
  · split <;> omega

theorem daysInMonth_le (y m : ℕ) : daysInMonth y m ≤ 31 := by
  unfold daysInMonth
  split
  · split <;> omega
  · split <;> omega

theorem addDays_add (a b : ℕ) : ∀ dt, addDays (a + b) dt = addDays b (addDays a dt) := by
  induction a with
  | zero => intro dt; simp [addDays]
  | succ a ih =>
    intro dt
    have hra : a + 1 + b = (a + b) + 1 := by omega
    rw [hra]
    show addDays (a + b) (nextDay dt) = addDays b (addDays a (nextDay dt))
    exact ih (nextDay dt)

theorem addDays_within : ∀ (n y m d : ℕ), 0 < d → d + n ≤ daysInMonth y m →
    addDays n ⟨y, m, d⟩ = ⟨y, m, d + n⟩ := by
  intro n
  induction n with
  | zero => intro y m d h1 h2; simp [addDays]
  | succ n ih =>
    intro y m d h1 h2
    show addDays n (nextDay ⟨y, m, d⟩) = _
    have hd : d < daysInMonth y m := by omega
    rw [show nextDay ⟨y, m, d⟩ = ⟨y, m, d + 1⟩ from by simp [nextDay, hd]]
    rw [ih y m (d + 1) (by omega) (by omega)]
    have hdd : d + 1 + n = d + (n + 1) := by omega
    rw [hdd]

theorem weekday_day_add (y m d δ : ℕ) :
    weekday ⟨y, m, d + δ⟩ = (weekday ⟨y, m, d⟩ + δ) % 7 := by
  simp only [weekday, toOrdinal]
  omega

theorem nextDay_month_end (y m : ℕ) :
    nextDay ⟨y, m, daysInMonth y m⟩ =
      if m < 12 then ⟨y, m + 1, 1⟩ else ⟨y + 1, 1, 1⟩ := by
  simp [nextDay]

/-- Unfolding equation of the resolver loop. -/
theorem resolveLoop_eq (m0 fuel : ℕ) (dt : Date) :
    resolveLoop m0 fuel dt =
      if dt.month = m0 ∨ 4 < weekday dt then
        match fuel with
        | 0 => none
        | f + 1 => resolveLoop m0 f (nextDay dt)
      else some dt := by
  rw [resolveLoop.eq_def]

/-- Whatever the loop returns is the first day of the walk, starting at
the given date, on which the condition fails. -/
theorem resolveLoop_sound (m0 : ℕ) :
    ∀ (fuel : ℕ) (dt r : Date), resolveLoop m0 fuel dt = some r →
      ∃ k, k ≤ fuel ∧ r = addDays k dt ∧ r.month ≠ m0 ∧ weekday r ≤ 4 ∧
        ∀ j < k, ((addDays j dt).month = m0 ∨ 4 < weekday (addDays j dt)) := by
  intro fuel
  induction fuel with
  | zero =>
    intro dt r h
    rw [resolveLoop_eq] at h
    by_cases hcond : dt.month = m0 ∨ 4 < weekday dt
    · rw [if_pos hcond] at h
      exact Option.noConfusion h
    · rw [if_neg hcond] at h
      obtain rfl : dt = r := Option.some.inj h
      push_neg at hcond
      exact ⟨0, le_rfl, rfl, hcond.1, by omega,
        fun j hj => absurd hj (Nat.not_lt_zero j)⟩
  | succ f ih =>
    intro dt r h
    rw [resolveLoop_eq] at h
    by_cases hcond : dt.month = m0 ∨ 4 < weekday dt
    · rw [if_pos hcond] at h
      obtain ⟨k, hk, hr, hm, hw, hmin⟩ := ih (nextDay dt) r h
      refine ⟨k + 1, by omega, hr, hm, hw, ?_⟩
      intro j hj
      cases j with
      | zero => simpa [addDays] using hcond
      | succ j => simpa [addDays] using hmin j (by omega)
    · rw [if_neg hcond] at h
      obtain rfl : dt = r := Option.some.inj h
      push_neg at hcond
      exact ⟨0, by omega, rfl, hcond.1, by omega,
        fun j hj => absurd hj (Nat.not_lt_zero j)⟩

/-- The loop terminates with an answer as soon as any day within the
fuel budget fails the condition. -/
theorem resolveLoop_some (m0 : ℕ) :
    ∀ (fuel : ℕ) (dt : Date),
      (∃ k, k ≤ fuel ∧
        ¬((addDays k dt).month = m0 ∨ 4 < weekday (addDays k dt))) →
      ∃ r, resolveLoop m0 fuel dt = some r := by
  intro fuel
  induction fuel with
  | zero =>
    rintro dt ⟨k, hk, hgood⟩
    have hk0 : k = 0 := by omega
    subst hk0
    rw [resolveLoop_eq, if_neg (by simpa [addDays] using hgood)]
    exact ⟨dt, rfl⟩
  | succ f ih =>
    rintro dt ⟨k, hk, hgood⟩
    rw [resolveLoop_eq]
    by_cases hcond : dt.month = m0 ∨ 4 < weekday dt
    · rw [if_pos hcond]
      cases k with
      | zero => exact absurd hcond (by simpa [addDays] using hgood)
      | succ k => exact ih (nextDay dt) ⟨k, by omega, by simpa [addDays] using hgood⟩
    · rw [if_neg hcond]
      exact ⟨dt, rfl⟩

/-- C3: for every parseable month/year input (months 1..12), the
resolver succeeds and returns the first date of the one-day-at-a-time
walk from day 28 of the input month whose month differs from the input
month and whose weekday is Monday through Friday — in particular the
result is never in the input month and never a Saturday or Sunday. -/
theorem parse_pe_date_spec (m0 y0 : ℕ) (hm1 : 1 ≤ m0) (hm2 : m0 ≤ 12) :
    ∃ r, parse_pe_date m0 y0 = some r ∧ r.month ≠ m0 ∧ weekday r ≤ 4 ∧
      ∃ k, r = addDays k ⟨y0, m0, 28⟩ ∧
        ∀ j < k, ((addDays j ⟨y0, m0, 28⟩).month = m0 ∨
          4 < weekday (addDays j ⟨y0, m0, 28⟩)) := by
  have hL28 : 28 ≤ daysInMonth y0 m0 := daysInMonth_ge y0 m0
  have hL31 : daysInMonth y0 m0 ≤ 31 := daysInMonth_le y0 m0
  have hstart : addDays 27 ⟨y0, m0, 1⟩ = ⟨y0, m0, 28⟩ :=
    addDays_within 27 y0 m0 1 (by omega) (by omega)
  have hLend : addDays (daysInMonth y0 m0 - 28) ⟨y0, m0, 28⟩ = ⟨y0, m0, daysInMonth y0 m0⟩ := by
    rw [addDays_within (daysInMonth y0 m0 - 28) y0 m0 28 (by omega) (by omega)]
    have h28 : 28 + (daysInMonth y0 m0 - 28) = daysInMonth y0 m0 := by omega
    rw [h28]
  obtain ⟨y1, m1, hnm, hm1ne⟩ :
      ∃ y1 m1, nextDay ⟨y0, m0, daysInMonth y0 m0⟩ = ⟨y1, m1, 1⟩ ∧ m1 ≠ m0 := by
    rw [nextDay_month_end]
    by_cases hm : m0 < 12
    · rw [if_pos hm]; exact ⟨y0, m0 + 1, rfl, by omega⟩
    · rw [if_neg hm]; exact ⟨y0 + 1, 1, rfl, by omega⟩
  have hk1 : addDays (daysInMonth y0 m0 - 27) ⟨y0, m0, 28⟩ = ⟨y1, m1, 1⟩ := by
    have hsplit : daysInMonth y0 m0 - 27 = (daysInMonth y0 m0 - 28) + 1 := by omega
    rw [hsplit, addDays_add (daysInMonth y0 m0 - 28) 1 ⟨y0, m0, 28⟩, hLend]
    show nextDay ⟨y0, m0, daysInMonth y0 m0⟩ = ⟨y1, m1, 1⟩
    exact hnm
  have hw7 : weekday ⟨y1, m1, 1⟩ < 7 := by
    simp only [weekday]
    omega
  obtain ⟨δ, hδ2, hwδ⟩ : ∃ δ, δ ≤ 2 ∧ (weekday ⟨y1, m1, 1⟩ + δ) % 7 ≤ 4 := by
    by_cases h4 : weekday ⟨y1, m1, 1⟩ ≤ 4
    · exact ⟨0, by omega, by omega⟩
    · by_cases h5 : weekday ⟨y1, m1, 1⟩ = 5
      · exact ⟨2, by omega, by omega⟩
      · have h6 : weekday ⟨y1, m1, 1⟩ = 6 := by omega
        exact ⟨1, by omega, by omega⟩
  have hδdate : addDays δ ⟨y1, m1, 1⟩ = ⟨y1, m1, 1 + δ⟩ :=
    addDays_within δ y1 m1 1 (by omega) (by have := daysInMonth_ge y1 m1; omega)
  have hgoodk :
      ¬((addDays ((daysInMonth y0 m0 - 27) + δ) ⟨y0, m0, 28⟩).month = m0 ∨
        4 < weekday (addDays ((daysInMonth y0 m0 - 27) + δ) ⟨y0, m0, 28⟩)) := by
    rw [addDays_add, hk1, hδdate]
    push_neg
    constructor
    · simpa using hm1ne
    · rw [weekday_day_add y1 m1 1 δ]
      omega
  obtain ⟨r, hr⟩ := resolveLoop_some m0 10 ⟨y0, m0, 28⟩
    ⟨(daysInMonth y0 m0 - 27) + δ, by omega, hgoodk⟩
  obtain ⟨k, hk10, hrk, hmne, hwle, hmin⟩ := resolveLoop_sound m0 10 ⟨y0, m0, 28⟩ r hr
  refine ⟨r, ?_, hmne, hwle, k, hrk, hmin⟩
  unfold parse_pe_date
  rw [hstart]
  exact hr

/-- C3 witness at the input 09/2011 (which resolves to 2011-10-03, a
Monday, skipping the weekend of October 1-2). -/
theorem parse_pe_date_spec_witness :
    ∃ r, parse_pe_date 9 2011 = some r ∧ r.month ≠ 9 ∧ weekday r ≤ 4 ∧
      ∃ k, r = addDays k ⟨2011, 9, 28⟩ ∧
        ∀ j < k, ((addDays j ⟨2011, 9, 28⟩).month = 9 ∨
          4 < weekday (addDays j ⟨2011, 9, 28⟩)) :=
  parse_pe_date_spec 9 2011 (by omega) (by omega)

end Capeval
